import Mathlib

/-!
A verification development for the encode half of the `codec` package
(`src/codec/encode.go`): the generic value-traversal engine, the byte-sink
abstraction, the extension-type registry and the timestamp codec.

The wire format (the `encoder` interface) is an external collaborator, so the
engine's output is modelled as the sequence of primitive-encoder calls it
makes (`EncEvent`).  Since the wire format's byte output is a function of the
whole call sequence, identical call sequences yield byte-identical output.
Go machine integers are modelled as `Int`/`Nat` with explicit `% 2 ^ w` where
a Go conversion truncates; Go panics are modelled as `Except` errors.
-/

namespace Codec

/-- Width tags for Go's signed integer types (`int`, `int8`, ..., `int64`). -/
inductive IntW where
  | iw | i8 | i16 | i32 | i64
deriving DecidableEq, Repr

/-- Width tags for Go's unsigned integer types (`uint`, `uint8`, ..., `uint64`). -/
inductive UintW where
  | uw | u8 | u16 | u32 | u64
deriving DecidableEq, Repr

/-- One struct field descriptor, as produced by the field-metadata collaborator
(`getStructFieldInfos`): output key name, omit-empty flag, and either a flat
field index (`i > -1`) or an index path `is` for embedded fields. -/
structure StructFieldInfo where
  encName : String
  omitEmpty : Bool
  i : Int
  is : List Nat
deriving DecidableEq, Repr

/-- Go type identity (`reflect.Type`), as far as the encoder inspects it.
A defined (named) type is `tNamed name underlying` and is distinct, as a type
identity, from its underlying type.  Struct types carry their field
descriptors, mirroring the per-type cached descriptor list.  `tOther` stands
for the kinds the encoder does not support (chan, func, ...). -/
inductive GoType where
  | tBool
  | tString
  | tInt (w : IntW)
  | tUint (w : UintW)
  | tFloat32
  | tFloat64
  | tSlice (elem : GoType)
  | tArray (n : Nat) (elem : GoType)
  | tMap (key val : GoType)
  | tPtr (elem : GoType)
  | tStruct (name : String) (fields : List StructFieldInfo)
  | tIface
  | tNamed (name : String) (underlying : GoType)
  | tOther (name : String)
deriving DecidableEq, Repr

/-- Go reflection kinds, as dispatched on by `encodeValue`. -/
inductive Kind where
  | kBool
  | kString
  | kInt (w : IntW)
  | kUint (w : UintW)
  | kFloat32
  | kFloat64
  | kSlice
  | kArray
  | kMap
  | kStruct
  | kPtr
  | kIface
  | kInvalid
  | kOther
deriving DecidableEq, Repr

/-- `reflect.Type.Kind()`: a named type has the kind of its underlying type. -/
def GoType.kind : GoType → Kind
  | .tBool => .kBool
  | .tString => .kString
  | .tInt w => .kInt w
  | .tUint w => .kUint w
  | .tFloat32 => .kFloat32
  | .tFloat64 => .kFloat64
  | .tSlice _ => .kSlice
  | .tArray _ _ => .kArray
  | .tMap _ _ => .kMap
  | .tPtr _ => .kPtr
  | .tStruct _ _ => .kStruct
  | .tIface => .kIface
  | .tNamed _ u => u.kind
  | .tOther _ => .kOther

/-- `reflect.Type.Elem()` for slice, array and pointer types (through names). -/
def GoType.elemType : GoType → GoType
  | .tSlice e => e
  | .tArray _ e => e
  | .tPtr e => e
  | .tNamed _ u => u.elemType
  | _ => .tOther "elemOfNonContainer"

/-- `reflect.Type.Key()` for map types (through names). -/
def GoType.keyType : GoType → GoType
  | .tMap k _ => k
  | .tNamed _ u => u.keyType
  | _ => .tOther "keyOfNonMap"

/-- Modelled from the spec: `byteSliceTyp` is declared outside `src/`
(helper file); per the spec's "byte-typed slice" special case it is the type
identity of the unnamed `[]byte`. -/
def byteSliceTyp : GoType := .tSlice (.tUint .u8)

/-- Scalar payloads carried by a primitive `reflect.Value`.  Floats are
modelled by their IEEE-754 bit patterns, which is all the engine moves
around (it never does float arithmetic). -/
inductive PrimData where
  | pBool (b : Bool)
  | pString (s : String)
  | pInt (v : Int)
  | pUint (v : Nat)
  | pFloat32 (bits : Nat)
  | pFloat64 (bits : Nat)
deriving DecidableEq, Repr

/-- A `reflect.Value`: a runtime value carrying its type identity.
`nilV` is a nil slice/map/pointer/interface of the given type; `invalidV`
is the zero `reflect.Value` (kind `Invalid`). -/
inductive RVal where
  | prim (t : GoType) (p : PrimData)
  | nilV (t : GoType)
  | sliceV (t : GoType) (elems : List RVal)
  | arrayV (t : GoType) (elems : List RVal)
  | mapV (t : GoType) (entries : List (RVal × RVal))
  | structV (t : GoType) (fields : List RVal)
  | ptrV (t : GoType) (elem : RVal)
  | ifaceV (t : GoType) (elem : RVal)
  | invalidV
  | otherV (t : GoType)

/-- `reflect.Value.Type()`. -/
def RVal.type : RVal → GoType
  | .prim t _ => t
  | .nilV t => t
  | .sliceV t _ => t
  | .arrayV t _ => t
  | .mapV t _ => t
  | .structV t _ => t
  | .ptrV t _ => t
  | .ifaceV t _ => t
  | .invalidV => .tOther "invalid"
  | .otherV t => t

/-- `reflect.Value.Kind()`. -/
def RVal.kind (rv : RVal) : Kind :=
  match rv with
  | .invalidV => .kInvalid
  | _ => rv.type.kind

/-- `reflect.Value.IsNil()`. -/
def RVal.isNil : RVal → Bool
  | .nilV _ => true
  | _ => false

/-- `reflect.Value.Bool()`. -/
def RVal.bool : RVal → Bool
  | .prim _ (.pBool b) => b
  | _ => false

/-- `reflect.Value.String()`. -/
def RVal.str : RVal → String
  | .prim _ (.pString s) => s
  | _ => ""

/-- `reflect.Value.Int()`: the value already widened to `int64`. -/
def RVal.int : RVal → Int
  | .prim _ (.pInt v) => v
  | _ => 0

/-- `reflect.Value.Uint()`: the value already widened to `uint64`. -/
def RVal.uint : RVal → Nat
  | .prim _ (.pUint v) => v
  | _ => 0

/-- `reflect.Value.Float()` bit pattern, for a float32 value: Go widens to
float64 and the generic dispatch narrows back with `float32(rv.Float())`,
an exact round trip, so the engine only ever moves the original bits. -/
def RVal.float32bits : RVal → Nat
  | .prim _ (.pFloat32 b) => b
  | _ => 0

/-- `reflect.Value.Float()` bit pattern, for a float64 value. -/
def RVal.float64bits : RVal → Nat
  | .prim _ (.pFloat64 b) => b
  | _ => 0

/-- `reflect.Value.Bytes()` for a byte slice (each element a `uint8`). -/
def RVal.bytes : RVal → List Nat
  | .sliceV _ es => es.map RVal.uint
  | _ => []

/-- `reflect.Value.Len()`. -/
def RVal.len : RVal → Nat
  | .prim _ (.pString s) => s.length
  | .sliceV _ es => es.length
  | .arrayV _ es => es.length
  | .mapV _ ents => ents.length
  | .nilV _ => 0
  | _ => 0

/-- Character-encoding hints (`c_UTF8`, `c_RAW`), declared outside `src/`. -/
inductive CharEncoding where
  | cUTF8
  | cRAW
deriving DecidableEq, Repr

/-- One call the engine makes on the wire format's primitive encoder (or, for
`evWriteb`, directly on the byte sink).  The engine's output is the sequence
of these calls. -/
inductive EncEvent where
  | evNil
  | evInt (i : Int)
  | evUint (u : Nat)
  | evBool (b : Bool)
  | evFloat32 (bits : Nat)
  | evFloat64 (bits : Nat)
  | evExtPreamble (tag : Nat) (length : Nat)
  | evArrayPreamble (length : Nat)
  | evMapPreamble (length : Nat)
  | evString (c : CharEncoding) (s : String)
  | evSymbol (s : String)
  | evStringBytes (c : CharEncoding) (bs : List Nat)
  | evWriteb (bs : List Nat)
deriving DecidableEq, Repr

/-- A Go panic raised during an encode; `Encode` recovers it into an error. -/
inductive GoPanic where
  | extErr (msg : String)
  | nilDeref
  | reflectFault
  | unsupportedKind (k : Kind)
  | divergeGuard
deriving DecidableEq, Repr

/-- A registered extension encode function: may fail (error), may report "no
bytes" (`none`, encoded as nil), or return a byte payload. -/
def ExtFn := RVal → Except String (Option (List Nat))

/-- `encExtTagFn`: the (function, tag) pair stored per registered type.
`fn = none` models a nil Go function value (the zero value read back from a
map miss). -/
structure EncExtTagFn where
  fn : Option ExtFn
  tag : Nat

/-- `encHandle`: the extension registry, with its two synchronized views —
the Go map `extFuncs` (modelled as an association list with at most one entry
per type) and the slice `exts` rebuilt from it after every mutation. -/
structure EncHandle where
  extFuncs : List (GoType × EncExtTagFn)
  exts : List (GoType × EncExtTagFn)

/-- The registry before any registration (`exts == nil`). -/
def EncHandle.empty : EncHandle := ⟨[], []⟩

/-- `encHandle.addEncodeExt`: delete any entry for `rt` from the map, insert
the new one when `fn` is non-nil, then rebuild the slice view from the map
(the capacity-doubling of the Go slice does not change its contents). -/
def EncHandle.addEncodeExt (o : EncHandle) (rt : GoType) (tag : Nat)
    (fn : Option ExtFn) : EncHandle :=
  let m1 := o.extFuncs.filter (fun p => p.1 ≠ rt)
  let m2 := match fn with
    | some f => m1 ++ [(rt, ⟨some f, tag⟩)]
    | none => m1
  { extFuncs := m2, exts := m2 }

/-- Modelled from the spec: `mapAccessThreshold` is declared outside `src/`;
the comment in `getEncodeExt` ("For >= 5 elements, map constant cost less
than iteration cost") fixes the linear scan to registries of fewer than 5
entries. -/
def mapAccessThreshold : Nat := 5

/-- `encHandle.getEncodeExt`: empty registry answers not-found immediately;
small registries scan the slice view linearly; large ones consult the map.
A miss returns the zero value `(0, nil)`. -/
def EncHandle.getEncodeExt (o : EncHandle) (rt : GoType) : Nat × Option ExtFn :=
  let l := o.exts.length
  if l = 0 then (0, none)
  else if l < mapAccessThreshold then
    match o.exts.find? (fun p => p.1 = rt) with
    | some p => (p.2.tag, p.2.fn)
    | none => (0, none)
  else
    match o.extFuncs.find? (fun p => p.1 = rt) with
    | some p => (p.2.tag, p.2.fn)
    | none => (0, none)

/- ---------------------------------------------------------------- -/
/- bytesEncWriter: the buffer-backed byte sink.                      -/
/- ---------------------------------------------------------------- -/

/-- `bytesEncWriter`: an owned growable buffer.  `data` is the full backing
array (so `data.length` is the slice capacity), `bLen` the Go slice length,
`c` the cursor.  The `out` pointer is modelled by `flush` returning the
encoded prefix. -/
structure BytesEncWriter where
  data : List Nat
  bLen : Nat
  c : Nat

/-- `cap(z.b)`. -/
def BytesEncWriter.cap (z : BytesEncWriter) : Nat := z.data.length

/-- `bytesEncWriter.grow`: advance the cursor by `n` and return the old
cursor; if the new cursor exceeds capacity, reallocate to `2*cap + n` and
copy the live prefix (`make` yields length = capacity); if it only exceeds
the slice length, extend the slice to full capacity. -/
def BytesEncWriter.grow (z : BytesEncWriter) (n : Nat) : BytesEncWriter × Nat :=
  let oldcursor := z.c
  let c' := oldcursor + n
  if c' > z.cap then
    let bs := z.data.take oldcursor ++ List.replicate (2 * z.cap + n - oldcursor) 0
    ({ data := bs, bLen := 2 * z.cap + n, c := c' }, oldcursor)
  else if c' > z.bLen then
    ({ z with bLen := z.cap, c := c' }, oldcursor)
  else
    ({ z with c := c' }, oldcursor)

/-- Store bytes `s` starting at position `pos` of the backing array
(the effect of Go's `copy(z.b[pos:], s)` when the room was grown first). -/
def writeAt (data : List Nat) (pos : Nat) (s : List Nat) : List Nat :=
  data.take pos ++ s.take (data.length - pos) ++ data.drop (pos + s.length)

/-- `byte(v >> k)`. -/
def byteOf (v : Nat) (k : Nat) : Nat := (v >>> k) % 256

/-- Write bytes `s` at the offset `grow` returned: the shared shape of all
the sink's write methods (grow, then store at the old cursor). -/
def BytesEncWriter.growWrite (z : BytesEncWriter) (n : Nat) (s : List Nat) : BytesEncWriter :=
  { (z.grow n).1 with data := writeAt (z.grow n).1.data (z.grow n).2 s }

/-- `bytesEncWriter.writeUint16`. -/
def BytesEncWriter.writeUint16 (z : BytesEncWriter) (v : Nat) : BytesEncWriter :=
  z.growWrite 2 [byteOf v 8, byteOf v 0]

/-- `bytesEncWriter.writeUint32`. -/
def BytesEncWriter.writeUint32 (z : BytesEncWriter) (v : Nat) : BytesEncWriter :=
  z.growWrite 4 [byteOf v 24, byteOf v 16, byteOf v 8, byteOf v 0]

/-- `bytesEncWriter.writeUint64`. -/
def BytesEncWriter.writeUint64 (z : BytesEncWriter) (v : Nat) : BytesEncWriter :=
  z.growWrite 8 ([byteOf v 56, byteOf v 48, byteOf v 40, byteOf v 32,
    byteOf v 24, byteOf v 16, byteOf v 8, byteOf v 0])

/-- `bytesEncWriter.writeb` (and `writestr`, a Go string being a byte
sequence): grow by the payload length and copy it in. -/
def BytesEncWriter.writeb (z : BytesEncWriter) (s : List Nat) : BytesEncWriter :=
  z.growWrite s.length s

/-- `bytesEncWriter.writen1`. -/
def BytesEncWriter.writen1 (z : BytesEncWriter) (b1 : Nat) : BytesEncWriter :=
  z.growWrite 1 [b1]

/-- `bytesEncWriter.writen2`. -/
def BytesEncWriter.writen2 (z : BytesEncWriter) (b1 b2 : Nat) : BytesEncWriter :=
  z.growWrite 2 [b1, b2]

/-- `bytesEncWriter.writen3`. -/
def BytesEncWriter.writen3 (z : BytesEncWriter) (b1 b2 b3 : Nat) : BytesEncWriter :=
  z.growWrite 3 [b1, b2, b3]

/-- `bytesEncWriter.writen4`. -/
def BytesEncWriter.writen4 (z : BytesEncWriter) (b1 b2 b3 b4 : Nat) : BytesEncWriter :=
  z.growWrite 4 [b1, b2, b3, b4]

/-- `bytesEncWriter.flush`: set the caller's output slot to the
logical-length prefix. -/
def BytesEncWriter.flush (z : BytesEncWriter) : List Nat := z.data.take z.c

/-- One call on the `encWriter` interface of the buffer-backed sink. -/
inductive WOp where
  | wU16 (v : Nat)
  | wU32 (v : Nat)
  | wU64 (v : Nat)
  | wBytes (s : List Nat)
  | wStr (s : List Nat)
  | w1 (b1 : Nat)
  | w2 (b1 b2 : Nat)
  | w3 (b1 b2 b3 : Nat)
  | w4 (b1 b2 b3 b4 : Nat)
deriving DecidableEq, Repr

/-- Apply one write call to the buffer-backed sink. -/
def BytesEncWriter.applyOp (z : BytesEncWriter) : WOp → BytesEncWriter
  | .wU16 v => z.writeUint16 v
  | .wU32 v => z.writeUint32 v
  | .wU64 v => z.writeUint64 v
  | .wBytes s => z.writeb s
  | .wStr s => z.writeb s
  | .w1 b1 => z.writen1 b1
  | .w2 b1 b2 => z.writen2 b1 b2
  | .w3 b1 b2 b3 => z.writen3 b1 b2 b3
  | .w4 b1 b2 b3 b4 => z.writen4 b1 b2 b3 b4

/-- Apply a sequence of write calls. -/
def BytesEncWriter.applyOps (z : BytesEncWriter) (ops : List WOp) : BytesEncWriter :=
  ops.foldl BytesEncWriter.applyOp z

/-- The sink produced by `NewEncoderBytes` for a fresh session with no
caller-provided buffer: `make([]byte, defEncByteBufSize)`, cursor 0. -/
def BytesEncWriter.fresh : BytesEncWriter :=
  { data := List.replicate 64 0, bLen := 64, c := 0 }

/- ---------------------------------------------------------------- -/
/- encodeTime: the timestamp codec.                                  -/
/- ---------------------------------------------------------------- -/

/-- `bigen.PutUint16` as a byte list. -/
def putUint16 (v : Nat) : List Nat := [byteOf v 8, byteOf v 0]

/-- `bigen.PutUint32` as a byte list. -/
def putUint32 (v : Nat) : List Nat :=
  [byteOf v 24, byteOf v 16, byteOf v 8, byteOf v 0]

/-- `bigen.PutUint64` as a byte list. -/
def putUint64 (v : Nat) : List Nat :=
  [byteOf v 56, byteOf v 48, byteOf v 40, byteOf v 32,
   byteOf v 24, byteOf v 16, byteOf v 8, byteOf v 0]

/-- Go's `uint64(i)` for an `int64` value: two's-complement truncation. -/
def toUint64 (i : Int) : Nat := (i % (2 ^ 64 : Int)).toNat

/-- Go's `uint32(int32(i))` for an in-range `int64` value. -/
def toUint32 (i : Int) : Nat := (i % (2 ^ 32 : Int)).toNat

/-- A `time.Time` as far as `encodeTime` reads it: `Unix()` seconds,
`Nanosecond()`, whether the location is `time.UTC`, and the `Zone()` offset
in seconds (only read when not UTC). -/
structure GoTime where
  secs : Int
  nsec : Nat
  isUTC : Bool
  zoneOffset : Int
deriving DecidableEq, Repr

/-- `encodeTime`: seconds as 4 bytes when strictly inside the `int32` range,
else 8 bytes (long form); non-zero nanoseconds as 4 bytes; a non-UTC zone
offset in minutes as a sign-bit + magnitude 16-bit field; one zero pad byte
when long form was used and nanoseconds were omitted. -/
def encodeTime (t : GoTime) : List Nat :=
  let tsecs := t.secs
  let tnsecs := t.nsec
  let secPart :=
    if tsecs > -2147483648 ∧ tsecs < 2147483647 then putUint32 (toUint32 tsecs)
    else putUint64 (toUint64 tsecs)
  let padzero := ¬(tsecs > -2147483648 ∧ tsecs < 2147483647) ∧ tnsecs = 0
  let nsPart := if tnsecs ≠ 0 then putUint32 (tnsecs % 2 ^ 32) else []
  let zonePart :=
    if t.isUTC then []
    else
      let zoneOffset := Int.tdiv t.zoneOffset 60
      let isNeg := zoneOffset < 0
      let zoneOffset := if isNeg then -zoneOffset else zoneOffset
      let z : Nat := zoneOffset.toNat % 2 ^ 16
      let z := if isNeg then z ||| 2 ^ 15 else z
      putUint16 z
  secPart ++ nsPart ++ zonePart ++ (if padzero then [0] else [])

/- ---------------------------------------------------------------- -/
/- The value-traversal engine.                                       -/
/- ---------------------------------------------------------------- -/

mutual

/-- Size measure on values, used to justify the engine's recursion.  A slice
view of an array is strictly smaller than the array, so the array case's
reslicing step decreases. -/
def rsize : RVal → Nat
  | .prim _ _ => 1
  | .nilV _ => 1
  | .invalidV => 1
  | .otherV _ => 1
  | .sliceV _ es => 2 + rsizeL es
  | .arrayV _ es => 3 + rsizeL es
  | .mapV _ ents => 2 + rsizeE ents
  | .structV _ fs => 1 + rsizeL fs
  | .ptrV _ e => 1 + rsize e
  | .ifaceV _ e => 1 + rsize e

/-- Combined size of a list of values. -/
def rsizeL : List RVal → Nat
  | [] => 0
  | e :: rest => rsize e + rsizeL rest

/-- Combined size of a list of map entries. -/
def rsizeE : List (RVal × RVal) → Nat
  | [] => 0
  | (k, v) :: rest => rsize k + rsize v + rsizeE rest

end

theorem rsize_pos (rv : RVal) : 1 ≤ rsize rv := by
  cases rv <;> simp [rsize] <;> omega

/-- `getStructFieldInfos`: the per-type cached field descriptor list, read
off the (possibly named) struct type. -/
def getStructFieldInfos : GoType → List StructFieldInfo
  | .tStruct _ fs => fs
  | .tNamed _ u => getStructFieldInfos u
  | _ => []

/-- Modelled from the spec: `isEmptyValue` is declared outside `src/`
(helper file); per the doc comment of `Encode` the empty values are `false`,
`0`, any nil pointer or interface value, and any array, slice, map, or
string of length zero.  An IEEE-754 float compares equal to `0` exactly on
the two signed-zero bit patterns. -/
def isEmptyValue (v : RVal) : Bool :=
  match v.kind with
  | .kArray | .kMap | .kSlice | .kString => v.len == 0
  | .kBool => !v.bool
  | .kInt _ => v.int == 0
  | .kUint _ => v.uint == 0
  | .kFloat32 => v.float32bits == 0 || v.float32bits == 2 ^ 31
  | .kFloat64 => v.float64bits == 0 || v.float64bits == 2 ^ 63
  | .kIface | .kPtr => v.isNil
  | _ => false

/-- `reflect.Value.Field(i)`: the `i`-th field of a struct value. -/
def rvField (rv : RVal) (i : Nat) : Except GoPanic RVal :=
  match rv with
  | .structV _ fs =>
    match fs.get? i with
    | some f => .ok f
    | none => .error .reflectFault
  | _ => .error .reflectFault

/-- One non-initial step of `reflect.Value.FieldByIndex`: dereference a
pointer to struct (panicking on nil), then take the field. -/
def rvFieldStep (rv : RVal) (i : Nat) : Except GoPanic RVal :=
  if rv.kind = .kPtr ∧ rv.type.elemType.kind = .kStruct then
    if rv.isNil then .error .nilDeref
    else
      match rv with
      | .ptrV _ e => rvField e i
      | _ => .error .reflectFault
  else rvField rv i

/-- The tail of `reflect.Value.FieldByIndex` after the first index. -/
def rvFieldByIndexRest (rv : RVal) : List Nat → Except GoPanic RVal
  | [] => .ok rv
  | i :: rest =>
    match rvFieldStep rv i with
    | .error p => .error p
    | .ok v => rvFieldByIndexRest v rest

/-- `reflect.Value.FieldByIndex`: nested field access along an index path
(with an empty path it returns the value unchanged). -/
def rvFieldByIndex (rv : RVal) : List Nat → Except GoPanic RVal
  | [] => .ok rv
  | i :: rest =>
    match rvField rv i with
    | .error p => .error p
    | .ok v => rvFieldByIndexRest v rest

/-- Resolve one descriptor's field value: `rv.Field(int(si.i))` when the
flat index is set, else `rv.FieldByIndex(si.is)`. -/
def resolveField (rv : RVal) (si : StructFieldInfo) : Except GoPanic RVal :=
  if si.i > -1 then rvField rv si.i.toNat
  else rvFieldByIndex rv si.is

/-- The first loop of `encStruct`: resolve every descriptor's value in
order, dropping the (omit-empty, empty) ones, keeping `(encName, value)`
pairs in descriptor order. -/
def structPhase1 (rv : RVal) : List StructFieldInfo → Except GoPanic (List (String × RVal))
  | [] => .ok []
  | si :: rest =>
    match resolveField rv si with
    | .error p => .error p
    | .ok v =>
      match structPhase1 rv rest with
      | .error p => .error p
      | .ok tail =>
        if si.omitEmpty && isEmptyValue v then .ok tail
        else .ok ((si.encName, v) :: tail)

/-- The `Handle` as the engine consumes it: the extension registry, the
`writeExt()` flag, and the wire format's optional `encodeBuiltinType` hook
(`some evs` meaning the format fully handled the value with calls `evs`). -/
structure MHandle where
  reg : EncHandle
  wExt : Bool
  builtin : GoType → RVal → Option (List EncEvent)

mutual

/-- `Encoder.encodeValue`: give the wire format's builtin hook first shot;
then the extension-registry override; then dispatch on the value's kind. -/
def encodeValue (h : MHandle) (rv : RVal) : Except GoPanic (List EncEvent) :=
  let rt := rv.type
  match h.builtin rt rv with
  | some evs => .ok evs
  | none =>
    let xf := h.reg.getEncodeExt rt
    match xf.2 with
    | some xfFn =>
      match xfFn rv with
      | .error fnerr => .error (.extErr fnerr)
      | .ok none => .ok [.evNil]
      | .ok (some bs) =>
        if h.wExt then .ok [.evExtPreamble xf.1 bs.length, .evWriteb bs]
        else .ok [.evStringBytes .cRAW bs]
    | none =>
      match rv.kind with
      | .kBool => .ok [.evBool rv.bool]
      | .kString => .ok [.evString .cUTF8 rv.str]
      | .kFloat64 => .ok [.evFloat64 rv.float64bits]
      | .kFloat32 => .ok [.evFloat32 rv.float32bits]
      | .kSlice =>
        if rv.isNil then .ok [.evNil]
        else if rt = byteSliceTyp then .ok [.evStringBytes .cRAW rv.bytes]
        else
          match rv with
          | .sliceV _ es =>
            match encodeElems h es with
            | .error p => .error p
            | .ok ts => .ok (.evArrayPreamble es.length :: ts)
          | _ => .error .reflectFault
      | .kArray =>
        match rv with
        | .arrayV t es => encodeValue h (.sliceV (.tSlice t.elemType) es)
        | _ => .error .reflectFault
      | .kMap =>
        if rv.isNil then .ok [.evNil]
        else
          match rv with
          | .mapV _ ents =>
            match encodeEntries h (rt.keyType.kind = .kString) ents with
            | .error p => .error p
            | .ok ts => .ok (.evMapPreamble ents.length :: ts)
          | _ => .error .reflectFault
      | .kStruct => encStruct h rt rv
      | .kPtr =>
        if rv.isNil then .ok [.evNil]
        else
          match rv with
          | .ptrV _ e => encodeValue h e
          | _ => .error .reflectFault
      | .kIface =>
        if rv.isNil then .ok [.evNil]
        else
          match rv with
          | .ifaceV _ e => encodeValue h e
          | _ => .error .reflectFault
      | .kInt _ => .ok [.evInt rv.int]
      | .kUint _ => .ok [.evUint rv.uint]
      | .kInvalid => .ok [.evNil]
      | .kOther => .error (.unsupportedKind rv.kind)
termination_by (rsize rv, 2, 0)
decreasing_by
  all_goals simp_wf
  all_goals first
    | (apply Prod.Lex.right; apply Prod.Lex.left; omega)
    | (apply Prod.Lex.left; simp [rsize] <;> omega)

/-- The element loop of the slice case: recurse on each element in index
order, concatenating the calls. -/
def encodeElems (h : MHandle) (es : List RVal) : Except GoPanic (List EncEvent) :=
  match es with
  | [] => .ok []
  | e :: rest =>
    match encodeValue h e with
    | .error p => .error p
    | .ok t =>
      match encodeElems h rest with
      | .error p => .error p
      | .ok ts => .ok (t ++ ts)
termination_by (rsizeL es + 1, 0, 0)
decreasing_by
  all_goals simp_wf
  · apply Prod.Lex.left; simp [rsizeL]; omega
  · apply Prod.Lex.left; have := rsize_pos e; simp [rsizeL]; omega

/-- The entry loop of the map case: each key via the symbol primitive when
the map's key type has string kind, else by generic recursion; each key
followed by the generically encoded value. -/
def encodeEntries (h : MHandle) (keyTypeIsString : Bool) (ents : List (RVal × RVal)) :
    Except GoPanic (List EncEvent) :=
  match ents with
  | [] => .ok []
  | (k, v) :: rest =>
    match (if keyTypeIsString then .ok [.evSymbol k.str] else encodeValue h k : Except GoPanic (List EncEvent)) with
    | .error p => .error p
    | .ok kt =>
      match encodeValue h v with
      | .error p => .error p
      | .ok vt =>
        match encodeEntries h keyTypeIsString rest with
        | .error p => .error p
        | .ok ts => .ok (kt ++ vt ++ ts)
termination_by (rsizeE ents + 1, 0, 0)
decreasing_by
  all_goals simp_wf
  · apply Prod.Lex.left; have := rsize_pos v; simp [rsizeE]; omega
  · apply Prod.Lex.left; have := rsize_pos k; simp [rsizeE]; omega
  · apply Prod.Lex.left; have hk := rsize_pos k
    simp [rsizeE]; omega

/-- `Encoder.encStruct`: resolve and filter the fields (first loop), then
emit the map preamble with the kept count followed by the kept pairs. -/
def encStruct (h : MHandle) (rt : GoType) (rv : RVal) : Except GoPanic (List EncEvent) :=
  match structPhase1 rv (getStructFieldInfos rt) with
  | .error p => .error p
  | .ok nvs =>
    match encodeFields h (rsize rv) nvs with
    | .error p => .error p
    | .ok ts => .ok (.evMapPreamble nvs.length :: ts)
termination_by (rsize rv, 1, 0)
decreasing_by
  apply Prod.Lex.right; apply Prod.Lex.left; omega

/-- The emission loop of `encStruct`: symbol key then recursive value, per
kept field.  `bound` carries the enclosing struct's size: a resolved field
value is always strictly smaller, except along index paths on which Go
itself would recurse without bound (an empty field-index path), where the
model aborts instead. -/
def encodeFields (h : MHandle) (bound : Nat) (nvs : List (String × RVal)) :
    Except GoPanic (List EncEvent) :=
  match nvs with
  | [] => .ok []
  | (n, v) :: rest =>
    if hlt : rsize v < bound then
      match encodeValue h v with
      | .error p => .error p
      | .ok t =>
        match encodeFields h bound rest with
        | .error p => .error p
        | .ok ts => .ok (.evSymbol n :: t ++ ts)
    else .error .divergeGuard
termination_by (bound, 0, nvs.length)
decreasing_by
  all_goals simp_wf
  · exact Prod.Lex.left _ _ hlt
  · apply Prod.Lex.right; apply Prod.Lex.right; omega

end

/-- An `interface{}` argument to `Encode`, by its static type: the cases of
the type switch in `Encoder.encode`.  A pointer case carries `none` for a
typed nil pointer.  `iOther` covers every type the switch defaults on
(handing `reflect.ValueOf(iv)` to the generic path). -/
inductive IFace where
  | iNil
  | iReflectValue (rv : RVal)
  | iString (s : String)
  | iBool (b : Bool)
  | iInt (w : IntW) (v : Int)
  | iUint (w : UintW) (v : Nat)
  | iFloat32 (bits : Nat)
  | iFloat64 (bits : Nat)
  | iPtrString (p : Option String)
  | iPtrBool (p : Option Bool)
  | iPtrInt (w : IntW) (p : Option Int)
  | iPtrUint (w : UintW) (p : Option Nat)
  | iPtrFloat32 (p : Option Nat)
  | iPtrFloat64 (p : Option Nat)
  | iOther (rv : RVal)

/-- `reflect.ValueOf` on the scalar cases of the type switch (used to state
that the fast path agrees with the generic path on the same value). -/
def reflectValueOf : IFace → RVal
  | .iNil => .invalidV
  | .iReflectValue rv => rv
  | .iString s => .prim .tString (.pString s)
  | .iBool b => .prim .tBool (.pBool b)
  | .iInt w v => .prim (.tInt w) (.pInt v)
  | .iUint w v => .prim (.tUint w) (.pUint v)
  | .iFloat32 bits => .prim .tFloat32 (.pFloat32 bits)
  | .iFloat64 bits => .prim .tFloat64 (.pFloat64 bits)
  | .iPtrString none => .nilV (.tPtr .tString)
  | .iPtrString (some s) => .ptrV (.tPtr .tString) (.prim .tString (.pString s))
  | .iPtrBool none => .nilV (.tPtr .tBool)
  | .iPtrBool (some b) => .ptrV (.tPtr .tBool) (.prim .tBool (.pBool b))
  | .iPtrInt w none => .nilV (.tPtr (.tInt w))
  | .iPtrInt w (some v) => .ptrV (.tPtr (.tInt w)) (.prim (.tInt w) (.pInt v))
  | .iPtrUint w none => .nilV (.tPtr (.tUint w))
  | .iPtrUint w (some v) => .ptrV (.tPtr (.tUint w)) (.prim (.tUint w) (.pUint v))
  | .iPtrFloat32 none => .nilV (.tPtr .tFloat32)
  | .iPtrFloat32 (some b) => .ptrV (.tPtr .tFloat32) (.prim .tFloat32 (.pFloat32 b))
  | .iPtrFloat64 none => .nilV (.tPtr .tFloat64)
  | .iPtrFloat64 (some b) => .ptrV (.tPtr .tFloat64) (.prim .tFloat64 (.pFloat64 b))
  | .iOther rv => rv

/-- `Encoder.encode`: the static type switch.  Scalars and non-nil pointers
to scalars are encoded directly; a typed nil pointer to a scalar is
dereferenced by the fast path and so panics; everything else goes through
`reflect.ValueOf` to `encodeValue`. -/
def encode (h : MHandle) : IFace → Except GoPanic (List EncEvent)
  | .iNil => .ok [.evNil]
  | .iReflectValue rv => encodeValue h rv
  | .iString s => .ok [.evString .cUTF8 s]
  | .iBool b => .ok [.evBool b]
  | .iInt _ v => .ok [.evInt v]
  | .iUint _ v => .ok [.evUint v]
  | .iFloat32 bits => .ok [.evFloat32 bits]
  | .iFloat64 bits => .ok [.evFloat64 bits]
  | .iPtrString none => .error .nilDeref
  | .iPtrString (some s) => .ok [.evString .cUTF8 s]
  | .iPtrBool none => .error .nilDeref
  | .iPtrBool (some b) => .ok [.evBool b]
  | .iPtrInt _ none => .error .nilDeref
  | .iPtrInt _ (some v) => .ok [.evInt v]
  | .iPtrUint _ none => .error .nilDeref
  | .iPtrUint _ (some v) => .ok [.evUint v]
  | .iPtrFloat32 none => .error .nilDeref
  | .iPtrFloat32 (some b) => .ok [.evFloat32 b]
  | .iPtrFloat64 none => .error .nilDeref
  | .iPtrFloat64 (some b) => .ok [.evFloat64 b]
  | .iOther rv => encodeValue h rv

/-- The scalar cases of the type switch (the "primitive fast path" for
values, as opposed to pointers to them). -/
def IFace.isScalar : IFace → Bool
  | .iString _ | .iBool _ | .iInt _ _ | .iUint _ _ | .iFloat32 _ | .iFloat64 _ => true
  | _ => false

/-- A `Handle` with nothing registered: empty extension registry, extensions
written as tagged blobs, and a wire format without a builtin fast-path hook. -/
def hPlain : MHandle := ⟨EncHandle.empty, true, fun _ _ => none⟩

/-- The map-entry loop as the spec words it for a string-kind key type: each
key via the symbol primitive, then the generically encoded value. -/
def symbolEntries (h : MHandle) : List (RVal × RVal) → Except GoPanic (List EncEvent)
  | [] => .ok []
  | (k, v) :: rest =>
    match encodeValue h v with
    | .error p => .error p
    | .ok vt =>
      match symbolEntries h rest with
      | .error p => .error p
      | .ok ts => .ok (.evSymbol k.str :: vt ++ ts)

/-- The map-entry loop as the spec words it for any other key type: each key
by generic recursion, then the generically encoded value. -/
def genericEntries (h : MHandle) : List (RVal × RVal) → Except GoPanic (List EncEvent)
  | [] => .ok []
  | (k, v) :: rest =>
    match encodeValue h k with
    | .error p => .error p
    | .ok kt =>
      match encodeValue h v with
      | .error p => .error p
      | .ok vt =>
        match genericEntries h rest with
        | .error p => .error p
        | .ok ts => .ok (kt ++ vt ++ ts)

/-- Resolve every descriptor's field value, in descriptor order. -/
def resolveAllFields (rv : RVal) : List StructFieldInfo → Except GoPanic (List RVal)
  | [] => .ok []
  | si :: rest =>
    match resolveField rv si with
    | .error p => .error p
    | .ok v =>
      match resolveAllFields rv rest with
      | .error p => .error p
      | .ok vs => .ok (v :: vs)

/-- The spec's filtered projection of a struct: drop each (omit-empty, empty)
field, keep `(encName, value)` pairs in the descriptors' original order. -/
def keptFields (sis : List StructFieldInfo) (vs : List RVal) : List (String × RVal) :=
  ((sis.zip vs).filter (fun p => !(p.1.omitEmpty && isEmptyValue p.2))).map
    (fun p => (p.1.encName, p.2))

/-- The spec's struct emission: for each kept pair, the symbol key then the
generically encoded value. -/
def fieldTrace (h : MHandle) : List (String × RVal) → Except GoPanic (List EncEvent)
  | [] => .ok []
  | (n, v) :: rest =>
    match encodeValue h v with
    | .error p => .error p
    | .ok t =>
      match fieldTrace h rest with
      | .error p => .error p
      | .ok ts => .ok (.evSymbol n :: t ++ ts)

/-- A `Handle` with one extension registered for `bool` under tag 42 (the
function returns the payload `[1]`), honoring extensions as tagged blobs. -/
def hExtTagged : MHandle :=
  ⟨EncHandle.empty.addEncodeExt .tBool 42 (some (fun _ => .ok (some [1]))), true,
    fun _ _ => none⟩

/-- Association lookup in the registry's map view, with the Go zero value
`(0, nil)` on a miss (the semantics of `o.extFuncs[rt]`). -/
def lookupZ (l : List (GoType × EncExtTagFn)) (rt : GoType) : Nat × Option ExtFn :=
  match l.find? (fun p => p.1 = rt) with
  | some p => (p.2.tag, p.2.fn)
  | none => (0, none)

/-- Register a sequence of (type, tag, function) extensions, in order. -/
def registerAll (h : EncHandle) (regs : List (GoType × Nat × ExtFn)) : EncHandle :=
  regs.foldl (fun acc r => acc.addEncodeExt r.1 r.2.1 (some r.2.2)) h

/-- A concrete extension function used by witnesses. -/
def wfnA : ExtFn := fun _ => .ok none

/-- A second concrete extension function used by witnesses. -/
def wfnB : ExtFn := fun _ => .ok (some [1])

/-- Well-formedness of the buffer-backed sink between writes: the cursor is
within the slice, and the slice within its capacity.  Holds on every sink
`NewEncoderBytes` can produce. -/
def WfW (z : BytesEncWriter) : Prop := z.c ≤ z.bLen ∧ z.bLen ≤ z.cap

theorem writeAt_length (d : List Nat) (p : Nat) (s : List Nat) :
    (writeAt d p s).length = d.length := by
  simp [writeAt]
  omega

theorem grow_eq_realloc (z : BytesEncWriter) (n : Nat) (hgt : z.cap < z.c + n) :
    z.grow n = (BytesEncWriter.mk
      (z.data.take z.c ++ List.replicate (2 * z.cap + n - z.c) 0)
      (2 * z.cap + n) (z.c + n), z.c) := by
  simp [BytesEncWriter.grow, hgt]

theorem grow_eq_extend (z : BytesEncWriter) (n : Nat) (hle : z.c + n ≤ z.cap)
    (hgt : z.bLen < z.c + n) :
    z.grow n = ({ z with bLen := z.cap, c := z.c + n }, z.c) := by
  simp [BytesEncWriter.grow, Nat.not_lt.mpr hle, hgt]

theorem grow_eq_inplace (z : BytesEncWriter) (n : Nat) (hle : z.c + n ≤ z.bLen)
    (hcap : z.bLen ≤ z.cap) :
    z.grow n = ({ z with c := z.c + n }, z.c) := by
  simp [BytesEncWriter.grow, Nat.not_lt.mpr hle, Nat.not_lt.mpr (le_trans hle hcap)]

theorem grow_wf (z : BytesEncWriter) (n : Nat) (h : WfW z) :
    WfW (z.grow n).1 ∧ z.cap ≤ (z.grow n).1.cap := by
  obtain ⟨h1, h2⟩ := h
  by_cases hgt : z.cap < z.c + n
  · rw [grow_eq_realloc z n hgt]
    simp only [BytesEncWriter.cap] at h2 hgt ⊢
    refine ⟨⟨?_, ?_⟩, ?_⟩ <;>
      simp [WfW, BytesEncWriter.cap, List.length_take] <;> omega
  · by_cases hgt2 : z.bLen < z.c + n
    · rw [grow_eq_extend z n (Nat.not_lt.mp hgt) hgt2]
      exact ⟨⟨Nat.not_lt.mp hgt, le_refl _⟩, le_refl _⟩
    · rw [grow_eq_inplace z n (Nat.not_lt.mp hgt2) h2]
      exact ⟨⟨Nat.not_lt.mp hgt2, h2⟩, le_refl _⟩

theorem growWrite_wf (z : BytesEncWriter) (n : Nat) (s : List Nat) (h : WfW z) :
    WfW (z.growWrite n s) ∧ z.cap ≤ (z.growWrite n s).cap := by
  have hg := grow_wf z n h
  constructor
  · exact ⟨hg.1.1, by
      simpa [BytesEncWriter.growWrite, WfW, BytesEncWriter.cap, writeAt_length]
        using hg.1.2⟩
  · simpa [BytesEncWriter.growWrite, BytesEncWriter.cap, writeAt_length] using hg.2

theorem applyOp_wf (z : BytesEncWriter) (op : WOp) (h : WfW z) :
    WfW (z.applyOp op) ∧ z.cap ≤ (z.applyOp op).cap := by
  cases op <;>
    simp only [BytesEncWriter.applyOp, BytesEncWriter.writeUint16,
      BytesEncWriter.writeUint32, BytesEncWriter.writeUint64, BytesEncWriter.writeb,
      BytesEncWriter.writen1, BytesEncWriter.writen2, BytesEncWriter.writen3,
      BytesEncWriter.writen4] <;>
    exact growWrite_wf z _ _ h

theorem applyOps_wf (ops : List WOp) (z : BytesEncWriter) (h : WfW z) :
    WfW (z.applyOps ops) ∧ z.cap ≤ (z.applyOps ops).cap := by
  induction ops generalizing z with
  | nil => exact ⟨h, le_refl _⟩
  | cons op rest ih =>
    have h1 := applyOp_wf z op h
    have h2 := ih (z.applyOp op) h1.1
    exact ⟨h2.1, le_trans h1.2 h2.2⟩

/-- C4: on the buffer-backed sink with cursor `c` and capacity `C`, a call
`grow n` with `c + n > C` reallocates to exactly capacity `2*C + n`, copies
the live prefix (the first `c` bytes) unchanged, returns the old cursor `c`,
and leaves the cursor at `c + n`. -/
theorem grow_realloc_law (z : BytesEncWriter) (n : Nat)
    (hc : z.c ≤ z.cap) (hov : z.cap < z.c + n) :
    (z.grow n).1.cap = 2 * z.cap + n ∧
    (z.grow n).1.data.take z.c = z.data.take z.c ∧
    (z.grow n).2 = z.c ∧
    (z.grow n).1.c = z.c + n := by
  rw [grow_eq_realloc z n hov]
  simp only [BytesEncWriter.cap] at hc hov
  refine ⟨?_, ?_, rfl, rfl⟩
  · simp only [BytesEncWriter.cap]
    simp [List.length_take]
    omega
  · rw [List.take_append_of_le_length (by simp [List.length_take]; omega)]
    simp [List.take_take]

/-- C4 witness: a concrete overflowing `grow` call. -/
theorem grow_realloc_law_witness :
    ((BytesEncWriter.mk [1, 2, 3, 4] 4 3).c ≤ (BytesEncWriter.mk [1, 2, 3, 4] 4 3).cap ∧
      (BytesEncWriter.mk [1, 2, 3, 4] 4 3).cap < (BytesEncWriter.mk [1, 2, 3, 4] 4 3).c + 5) ∧
    (((BytesEncWriter.mk [1, 2, 3, 4] 4 3).grow 5).1.cap =
        2 * (BytesEncWriter.mk [1, 2, 3, 4] 4 3).cap + 5 ∧
      ((BytesEncWriter.mk [1, 2, 3, 4] 4 3).grow 5).1.data.take
          (BytesEncWriter.mk [1, 2, 3, 4] 4 3).c =
        (BytesEncWriter.mk [1, 2, 3, 4] 4 3).data.take (BytesEncWriter.mk [1, 2, 3, 4] 4 3).c ∧
      ((BytesEncWriter.mk [1, 2, 3, 4] 4 3).grow 5).2 = (BytesEncWriter.mk [1, 2, 3, 4] 4 3).c ∧
      ((BytesEncWriter.mk [1, 2, 3, 4] 4 3).grow 5).1.c =
        (BytesEncWriter.mk [1, 2, 3, 4] 4 3).c + 5) :=
  ⟨⟨by decide, by decide⟩,
    grow_realloc_law (BytesEncWriter.mk [1, 2, 3, 4] 4 3) 5 (by decide) (by decide)⟩

/-- C8: for the buffer-backed sink, after any sequence of writes in a
session started from a well-formed sink, the cursor (logical length) is at
most the physical capacity, and the capacity never shrinks across the
sequence (the capacity after any prefix of the writes is at most the
capacity after the whole sequence). -/
theorem bytesWriter_invariant (z : BytesEncWriter) (hwf : WfW z) (ops₁ ops₂ : List WOp) :
    (z.applyOps (ops₁ ++ ops₂)).c ≤ (z.applyOps (ops₁ ++ ops₂)).cap ∧
    (z.applyOps ops₁).cap ≤ (z.applyOps (ops₁ ++ ops₂)).cap := by
  have hall := applyOps_wf (ops₁ ++ ops₂) z hwf
  have h1 := applyOps_wf ops₁ z hwf
  have happ : z.applyOps (ops₁ ++ ops₂) = (z.applyOps ops₁).applyOps ops₂ := by
    simp [BytesEncWriter.applyOps, List.foldl_append]
  refine ⟨le_trans hall.1.1 hall.1.2, ?_⟩
  rw [happ]
  exact (applyOps_wf ops₂ _ h1.1).2

/-- C8 witness: a concrete session on the fresh 64-byte sink with a write
that forces a reallocation. -/
theorem bytesWriter_invariant_witness :
    WfW BytesEncWriter.fresh ∧
    ((BytesEncWriter.fresh.applyOps ([WOp.w1 5] ++ [WOp.wBytes (List.replicate 100 7)])).c ≤
        (BytesEncWriter.fresh.applyOps ([WOp.w1 5] ++ [WOp.wBytes (List.replicate 100 7)])).cap ∧
      (BytesEncWriter.fresh.applyOps [WOp.w1 5]).cap ≤
        (BytesEncWriter.fresh.applyOps ([WOp.w1 5] ++ [WOp.wBytes (List.replicate 100 7)])).cap) :=
  ⟨⟨by decide, by decide⟩,
    bytesWriter_invariant BytesEncWriter.fresh ⟨by decide, by decide⟩ _ _⟩

/-- C3 counterexample: `2147483647` seconds since the epoch lies within the
signed 32-bit range, yet a UTC instant with those seconds and zero
nanoseconds encodes to 9 bytes (long form plus pad), not 4: the source's
range test is strict at both bounds. -/
theorem encodeTime_int32_boundary :
    (-2147483648 ≤ (2147483647 : Int) ∧ (2147483647 : Int) ≤ 2147483647) ∧
    (encodeTime ⟨2147483647, 0, true, 0⟩).length = 9 := by
  refine ⟨⟨by decide, by decide⟩, ?_⟩
  decide

/-- C3 (amended: "within the signed 32-bit range" sharpened to "strictly
between the signed 32-bit bounds", which is what the source tests): with
seconds strictly inside `(MinInt32, MaxInt32)` the seconds take 4 bytes, so
a UTC instant with zero nanoseconds encodes to 4 bytes, with non-zero
nanoseconds to 8 bytes, and a non-UTC instant with zero nanoseconds to
6 bytes; with seconds at or outside those bounds the seconds take 8 bytes
and a UTC instant with zero nanoseconds encodes to 9 bytes (8 seconds plus
1 zero pad byte). -/
theorem encodeTime_lengths (t : GoTime) :
    ((-2147483648 < t.secs ∧ t.secs < 2147483647) →
      (t.isUTC = true → t.nsec = 0 → (encodeTime t).length = 4) ∧
      (t.isUTC = true → t.nsec ≠ 0 → (encodeTime t).length = 8) ∧
      (t.isUTC = false → t.nsec = 0 → (encodeTime t).length = 6)) ∧
    (¬(-2147483648 < t.secs ∧ t.secs < 2147483647) →
      t.isUTC = true → t.nsec = 0 →
        (encodeTime t).length = 9 ∧ (encodeTime t).take 8 = putUint64 (toUint64 t.secs)) := by
  constructor
  · intro hin
    refine ⟨?_, ?_, ?_⟩ <;> intro hu hn <;>
      simp [encodeTime, hin, hu, hn, putUint32, putUint64, putUint16]
  · intro hout hu hn
    simp [encodeTime, hout, hu, hn, putUint32, putUint64, putUint16]

/-- C3 witness: the four concrete scenarios of the amended claim. -/
theorem encodeTime_lengths_witness :
    (encodeTime ⟨1000, 0, true, 0⟩).length = 4 ∧
    (encodeTime ⟨1000, 5, true, 0⟩).length = 8 ∧
    (encodeTime ⟨1000, 0, false, 3600⟩).length = 6 ∧
    (encodeTime ⟨5000000000, 0, true, 0⟩).length = 9 :=
  ⟨((encodeTime_lengths ⟨1000, 0, true, 0⟩).1 (by decide)).1 rfl rfl,
   ((encodeTime_lengths ⟨1000, 5, true, 0⟩).1 (by decide)).2.1 rfl (by decide),
   ((encodeTime_lengths ⟨1000, 0, false, 3600⟩).1 (by decide)).2.2 rfl rfl,
   ((encodeTime_lengths ⟨5000000000, 0, true, 0⟩).2 (by decide) rfl rfl).1⟩

theorem find?_filter_ne (l : List (GoType × EncExtTagFn)) (rt rt' : GoType)
    (h : rt' ≠ rt) :
    (l.filter (fun p => p.1 ≠ rt)).find? (fun p => p.1 = rt') =
      l.find? (fun p => p.1 = rt') := by
  rw [List.find?_filter]
  congr 1
  funext a
  rcases eq_or_ne a.1 rt with ha | ha
  · have hne : a.1 ≠ rt' := fun hc => h (hc ▸ ha)
    simp [ha, hne, Ne.symm h]
  · simp [ha]

theorem find?_filter_self (l : List (GoType × EncExtTagFn)) (rt : GoType) :
    (l.filter (fun p => p.1 ≠ rt)).find? (fun p => p.1 = rt) = none := by
  rw [List.find?_filter]
  apply List.find?_eq_none.mpr
  intro x _
  by_cases hx : x.1 = rt <;> simp [hx]

theorem add_lookup_same (o : EncHandle) (rt : GoType) (tag : Nat) (fn : Option ExtFn) :
    lookupZ (o.addEncodeExt rt tag fn).extFuncs rt =
      (match fn with | some f => (tag, some f) | none => (0, none)) := by
  cases fn with
  | none =>
    simp only [EncHandle.addEncodeExt, lookupZ]
    rw [find?_filter_self]
  | some f =>
    simp only [EncHandle.addEncodeExt, lookupZ, List.find?_append]
    rw [find?_filter_self]
    simp

theorem add_lookup_other (o : EncHandle) (rt rt' : GoType) (tag : Nat)
    (fn : Option ExtFn) (h : rt' ≠ rt) :
    lookupZ (o.addEncodeExt rt tag fn).extFuncs rt' = lookupZ o.extFuncs rt' := by
  cases fn with
  | none =>
    simp only [EncHandle.addEncodeExt, lookupZ]
    rw [find?_filter_ne _ _ _ h]
  | some f =>
    simp only [EncHandle.addEncodeExt, lookupZ, List.find?_append]
    rw [find?_filter_ne _ _ _ h]
    have h1 : List.find? (fun p => p.1 = rt') [(rt, EncExtTagFn.mk (some f) tag)]
        = none := by
      simp [Ne.symm h]
    rw [h1]
    cases o.extFuncs.find? (fun p => p.1 = rt') <;> simp

theorem addEncodeExt_synced (o : EncHandle) (rt : GoType) (tag : Nat)
    (fn : Option ExtFn) :
    (o.addEncodeExt rt tag fn).exts = (o.addEncodeExt rt tag fn).extFuncs := rfl

theorem getEncodeExt_eq_lookupZ (o : EncHandle) (hs : o.exts = o.extFuncs)
    (rt : GoType) : o.getEncodeExt rt = lookupZ o.extFuncs rt := by
  simp only [EncHandle.getEncodeExt, lookupZ, hs]
  by_cases h0 : o.extFuncs.length = 0
  · rw [List.length_eq_zero] at h0
    simp [h0]
  · by_cases hlt : o.extFuncs.length < mapAccessThreshold <;> simp [h0, hlt]

theorem registerAll_lookup_notmem (regs : List (GoType × Nat × ExtFn))
    (h : EncHandle) (t : GoType) (hnm : t ∉ regs.map Prod.fst) :
    lookupZ (registerAll h regs).extFuncs t = lookupZ h.extFuncs t := by
  induction regs generalizing h with
  | nil => rfl
  | cons r rest ih =>
    rw [List.map_cons, List.mem_cons] at hnm
    push_neg at hnm
    have hstep := ih (h.addEncodeExt r.1 r.2.1 (some r.2.2)) hnm.2
    have hother := add_lookup_other h r.1 t r.2.1 (some r.2.2) hnm.1
    calc lookupZ (registerAll (h.addEncodeExt r.1 r.2.1 (some r.2.2)) rest).extFuncs t
        = lookupZ (h.addEncodeExt r.1 r.2.1 (some r.2.2)).extFuncs t := hstep
      _ = lookupZ h.extFuncs t := hother

theorem registerAll_lookup_mem (regs : List (GoType × Nat × ExtFn))
    (h : EncHandle) (hnd : (regs.map Prod.fst).Nodup) (t : GoType) (tg : Nat)
    (f : ExtFn) (hmem : (t, (tg, f)) ∈ regs) :
    lookupZ (registerAll h regs).extFuncs t = (tg, some f) := by
  induction regs generalizing h with
  | nil => cases hmem
  | cons r rest ih =>
    rw [List.map_cons, List.nodup_cons] at hnd
    rcases List.mem_cons.mp hmem with hr | hr
    · subst hr
      rw [show registerAll h ((t, (tg, f)) :: rest)
          = registerAll (h.addEncodeExt t tg (some f)) rest from rfl]
      rw [registerAll_lookup_notmem rest _ t hnd.1]
      simpa using add_lookup_same h t tg (some f)
    · exact ih (h.addEncodeExt r.1 r.2.1 (some r.2.2)) hnd.2 hr

theorem registerAll_synced (regs : List (GoType × Nat × ExtFn)) (h : EncHandle)
    (hs : h.exts = h.extFuncs) :
    (registerAll h regs).exts = (registerAll h regs).extFuncs := by
  induction regs generalizing h with
  | nil => exact hs
  | cons r rest ih =>
    exact ih (h.addEncodeExt r.1 r.2.1 (some r.2.2)) rfl

/-- C6: register types with non-nil functions, then register one type with a
nil function: looking that type up afterwards answers not-found (the zero
pair), every other registered type still answers its original tag and
function, and lookup on the empty registry answers not-found immediately. -/
theorem extRegistry_remove (regs : List (GoType × Nat × ExtFn)) (tj : GoType)
    (tagj : Nat) (hnd : (regs.map Prod.fst).Nodup) :
    (((registerAll EncHandle.empty regs).addEncodeExt tj tagj none).getEncodeExt tj
        = (0, none)) ∧
    (∀ t tg f, (t, (tg, f)) ∈ regs → t ≠ tj →
      ((registerAll EncHandle.empty regs).addEncodeExt tj tagj none).getEncodeExt t
        = (tg, some f)) ∧
    (∀ t, EncHandle.empty.getEncodeExt t = (0, none)) := by
  have hsync := addEncodeExt_synced (registerAll EncHandle.empty regs) tj tagj none
  refine ⟨?_, ?_, fun t => rfl⟩
  · rw [getEncodeExt_eq_lookupZ _ hsync tj]
    exact add_lookup_same _ tj tagj none
  · intro t tg f hmem hne
    rw [getEncodeExt_eq_lookupZ _ hsync t,
      add_lookup_other _ tj t tagj none hne]
    exact registerAll_lookup_mem regs EncHandle.empty hnd t tg f hmem

/-- C6 witness: register bool and string extensions, remove the bool one. -/
theorem extRegistry_remove_witness :
    (([(GoType.tBool, (5, wfnA)), (GoType.tString, (9, wfnB))].map Prod.fst).Nodup) ∧
    (((registerAll EncHandle.empty [(GoType.tBool, (5, wfnA)), (GoType.tString, (9, wfnB))]).addEncodeExt
        GoType.tBool 0 none).getEncodeExt GoType.tBool = (0, none)) ∧
    (((registerAll EncHandle.empty [(GoType.tBool, (5, wfnA)), (GoType.tString, (9, wfnB))]).addEncodeExt
        GoType.tBool 0 none).getEncodeExt GoType.tString = (9, some wfnB)) := by
  exact ⟨by decide,
    (extRegistry_remove [(GoType.tBool, (5, wfnA)), (GoType.tString, (9, wfnB))]
      GoType.tBool 0 (by decide)).1,
    (extRegistry_remove [(GoType.tBool, (5, wfnA)), (GoType.tString, (9, wfnB))]
      GoType.tBool 0 (by decide)).2.1 GoType.tString 9 wfnB
      (List.mem_cons_of_mem _ (List.mem_cons_self _ _)) (by decide)⟩

/-- C1: for every supported scalar value (bool, string, signed and unsigned
integers of all widths, float32, float64) with no extension registered for
its type and no builtin-hook override, the primitive fast path of
`Encoder.encode` produces the same primitive-encoder call sequence — hence
byte-identical output — as the generic kind dispatch of
`Encoder.encodeValue` on the same value. -/
theorem fastPath_eq_generic (h : MHandle) (iv : IFace) (hs : iv.isScalar = true)
    (hb : h.builtin (reflectValueOf iv).type (reflectValueOf iv) = none)
    (hx : (h.reg.getEncodeExt (reflectValueOf iv).type).2 = none) :
    encode h iv = encodeValue h (reflectValueOf iv) := by
  cases iv <;> simp only [IFace.isScalar] at hs <;> try cases hs
  all_goals (
    simp only [reflectValueOf, RVal.type] at hb hx
    simp [encode, encodeValue, reflectValueOf, hb, hx, RVal.kind, RVal.type,
      GoType.kind, RVal.bool, RVal.str, RVal.int, RVal.uint, RVal.float32bits,
      RVal.float64bits])

/-- C1 witness: the fast path and the generic path agree on the `int` 42
under the plain handle. -/
theorem fastPath_eq_generic_witness :
    IFace.isScalar (.iInt .iw 42) = true ∧
    encode hPlain (.iInt .iw 42) = encodeValue hPlain (reflectValueOf (.iInt .iw 42)) :=
  ⟨rfl, fastPath_eq_generic hPlain (.iInt .iw 42) rfl rfl rfl⟩

/-- C2 counterexample: a typed nil `*int` passed to `Encode` is matched by
the fast path's `*int` case and dereferenced, so it panics (surfacing as an
error) instead of emitting the nil marker. -/
theorem nil_scalar_pointer_panics :
    encode hPlain (.iPtrInt .iw none) = .error .nilDeref ∧
    encode hPlain (.iPtrInt .iw none) ≠ .ok [.evNil] := by
  refine ⟨rfl, ?_⟩
  simp [encode]

/-- C2 (amended: a nil interface, nil slice, nil map, and nil pointer of a
type outside the fast-path scalar-pointer cases emit exactly the nil marker;
a typed nil pointer to a fast-path scalar type (`*int`, `*string`, ...) is
dereferenced by the fast path and panics, emitting nothing). -/
theorem nil_values_encode_nil (h : MHandle) (rv : RVal)
    (hnil : rv.isNil = true)
    (hb : h.builtin rv.type rv = none)
    (hx : (h.reg.getEncodeExt rv.type).2 = none)
    (hk : rv.type.kind = .kSlice ∨ rv.type.kind = .kMap ∨ rv.type.kind = .kPtr ∨
      rv.type.kind = .kIface) :
    (encode h (.iOther rv) = .ok [.evNil] ∧ encode h .iNil = .ok [.evNil]) ∧
    ((∀ w, encode h (.iPtrInt w none) = .error .nilDeref) ∧
      (∀ w, encode h (.iPtrUint w none) = .error .nilDeref) ∧
      encode h (.iPtrString none) = .error .nilDeref ∧
      encode h (.iPtrBool none) = .error .nilDeref ∧
      encode h (.iPtrFloat32 none) = .error .nilDeref ∧
      encode h (.iPtrFloat64 none) = .error .nilDeref) := by
  refine ⟨⟨?_, rfl⟩, fun w => rfl, fun w => rfl, rfl, rfl, rfl, rfl⟩
  cases rv <;> try cases hnil
  rename_i t
  simp only [RVal.type] at hb hx hk
  rw [show encode h (.iOther (.nilV t)) = encodeValue h (.nilV t) from rfl]
  rcases hk with hk | hk | hk | hk <;>
    simp [encodeValue, hb, hx, RVal.type, RVal.kind, hk, RVal.isNil]

/-- C2 witness: a nil slice of ints encodes to exactly the nil marker under
the plain handle. -/
theorem nil_values_encode_nil_witness :
    (RVal.nilV (.tSlice (.tInt .iw))).isNil = true ∧
    encode hPlain (.iOther (.nilV (.tSlice (.tInt .iw)))) = .ok [.evNil] :=
  ⟨rfl, (nil_values_encode_nil hPlain (.nilV (.tSlice (.tInt .iw))) rfl rfl rfl
    (Or.inl rfl)).1.1⟩

/-- C7: when the value's type has a registered extension function (and the
builtin hook passes), `encodeValue` invokes it: an error from the function
aborts the encode and propagates; a nil payload emits the nil marker; a
non-nil payload emits the extension preamble (tag, payload length) followed
by the raw payload when the Handle's writeExt flag is set, else the payload
as a raw byte string. -/
theorem extension_dispatch (h : MHandle) (rv : RVal) (tag : Nat) (fn : ExtFn)
    (hb : h.builtin rv.type rv = none)
    (hx : h.reg.getEncodeExt rv.type = (tag, some fn)) :
    encodeValue h rv =
      (match fn rv with
       | .error e => .error (.extErr e)
       | .ok none => .ok [.evNil]
       | .ok (some bs) =>
         if h.wExt then .ok [.evExtPreamble tag bs.length, .evWriteb bs]
         else .ok [.evStringBytes .cRAW bs]) := by
  cases hfr : fn rv with
  | error e => cases rv <;> simp [encodeValue, hb, hx, hfr]
  | ok ob => cases ob <;> cases rv <;> simp [encodeValue, hb, hx, hfr]

/-- C7 witness: a registered bool extension returning payload `[1]` under a
tagged-blob handle emits the preamble (tag 42, length 1) then the raw
payload. -/
theorem extension_dispatch_witness :
    encodeValue hExtTagged (.prim .tBool (.pBool true)) =
      .ok [.evExtPreamble 42 1, .evWriteb [1]] := by
  rw [extension_dispatch hExtTagged (.prim .tBool (.pBool true)) 42
    (fun _ => .ok (some [1])) rfl rfl]
  rfl

theorem encodeEntries_symbol (h : MHandle) (ents : List (RVal × RVal)) :
    encodeEntries h true ents = symbolEntries h ents := by
  induction ents with
  | nil => simp [encodeEntries, symbolEntries]
  | cons e rest ih =>
    obtain ⟨k, v⟩ := e
    simp only [encodeEntries, symbolEntries, if_pos rfl, ih]
    rfl

theorem encodeEntries_generic (h : MHandle) (ents : List (RVal × RVal)) :
    encodeEntries h false ents = genericEntries h ents := by
  induction ents with
  | nil => simp [encodeEntries, genericEntries]
  | cons e rest ih =>
    obtain ⟨k, v⟩ := e
    simp only [encodeEntries, genericEntries, ih]
    rfl

/-- C9 counterexample: a map whose key type is the defined type
`MyStr` (underlying type `string`) has its key encoded via the symbol
primitive — the kind test `rt.Key().Kind() == reflect.String` also matches
named string types — not by generic recursion, which would emit a plain
string call. -/
theorem mapKey_named_string_symbol :
    encodeValue hPlain (.mapV (.tMap (.tNamed "MyStr" .tString) (.tInt .iw))
        [(.prim (.tNamed "MyStr" .tString) (.pString "k"), .prim (.tInt .iw) (.pInt 3))]) =
      .ok [.evMapPreamble 1, .evSymbol "k", .evInt 3] ∧
    (Except.ok [EncEvent.evMapPreamble 1, EncEvent.evSymbol "k", EncEvent.evInt 3] :
        Except GoPanic (List EncEvent)) ≠
      .ok [.evMapPreamble 1, .evString .cUTF8 "k", .evInt 3] := by
  constructor
  · simp [encodeValue, encodeEntries, hPlain, EncHandle.empty, EncHandle.getEncodeExt,
      RVal.kind, RVal.type, GoType.kind, GoType.keyType, RVal.isNil, RVal.str, RVal.int]
  · simp

/-- C9 (amended: the kind test also matches named key types whose underlying
kind is string): when encoding a non-nil map, if the map's key type's kind is
string — including defined types with underlying type string — every key is
encoded via the symbol primitive, otherwise by generic recursion; each key is
followed by the generically encoded value. -/
theorem mapKey_dispatch (h : MHandle) (t : GoType) (ents : List (RVal × RVal))
    (hb : h.builtin (RVal.mapV t ents).type (RVal.mapV t ents) = none)
    (hx : (h.reg.getEncodeExt (RVal.mapV t ents).type).2 = none)
    (ht : t.kind = .kMap) :
    (t.keyType.kind = .kString →
      encodeValue h (.mapV t ents) =
        (match symbolEntries h ents with
         | .error p => .error p
         | .ok ts => .ok (.evMapPreamble ents.length :: ts))) ∧
    (t.keyType.kind ≠ .kString →
      encodeValue h (.mapV t ents) =
        (match genericEntries h ents with
         | .error p => .error p
         | .ok ts => .ok (.evMapPreamble ents.length :: ts))) := by
  simp only [RVal.type] at hb hx
  constructor <;> intro hkey
  · rw [← encodeEntries_symbol]
    simp [encodeValue, hb, hx, RVal.kind, RVal.type, ht, RVal.isNil, hkey]
  · rw [← encodeEntries_generic]
    simp [encodeValue, hb, hx, RVal.kind, RVal.type, ht, RVal.isNil, hkey]

/-- C9 witness: the amended theorem applied to a one-entry map with plain
string keys (symbol side) and int keys (generic side). -/
theorem mapKey_dispatch_witness :
    ((GoType.tMap .tString (.tInt .iw)).keyType.kind = .kString ∧
      encodeValue hPlain (.mapV (.tMap .tString (.tInt .iw))
          [(.prim .tString (.pString "k"), .prim (.tInt .iw) (.pInt 3))]) =
        (match symbolEntries hPlain
            [(.prim .tString (.pString "k"), .prim (.tInt .iw) (.pInt 3))] with
         | .error p => .error p
         | .ok ts => .ok (.evMapPreamble 1 :: ts))) ∧
    ((GoType.tMap (.tInt .iw) .tString).keyType.kind ≠ .kString ∧
      encodeValue hPlain (.mapV (.tMap (.tInt .iw) .tString)
          [(.prim (.tInt .iw) (.pInt 3), .prim .tString (.pString "v"))]) =
        (match genericEntries hPlain
            [(.prim (.tInt .iw) (.pInt 3), .prim .tString (.pString "v"))] with
         | .error p => .error p
         | .ok ts => .ok (.evMapPreamble 1 :: ts))) :=
  ⟨⟨rfl, (mapKey_dispatch hPlain (.tMap .tString (.tInt .iw))
      [(.prim .tString (.pString "k"), .prim (.tInt .iw) (.pInt 3))] rfl rfl rfl).1 rfl⟩,
   ⟨by decide, (mapKey_dispatch hPlain (.tMap (.tInt .iw) .tString)
      [(.prim (.tInt .iw) (.pInt 3), .prim .tString (.pString "v"))] rfl rfl rfl).2
      (by decide)⟩⟩

/-- C10: only a non-nil slice whose exact declared type is `[]byte` is
encoded as a single raw byte string; a non-nil slice of a defined type with
underlying type `[]byte` misses the type-identity test and is encoded as an
array preamble followed by its elements one by one. -/
theorem byteSlice_exact_type (h : MHandle) (es : List RVal) (name : String)
    (hb1 : h.builtin byteSliceTyp (.sliceV byteSliceTyp es) = none)
    (hx1 : (h.reg.getEncodeExt byteSliceTyp).2 = none)
    (hb2 : h.builtin (.tNamed name (.tSlice (.tUint .u8)))
      (.sliceV (.tNamed name (.tSlice (.tUint .u8))) es) = none)
    (hx2 : (h.reg.getEncodeExt (.tNamed name (.tSlice (.tUint .u8)))).2 = none) :
    encodeValue h (.sliceV byteSliceTyp es) =
      .ok [.evStringBytes .cRAW (es.map RVal.uint)] ∧
    encodeValue h (.sliceV (.tNamed name (.tSlice (.tUint .u8))) es) =
      (match encodeElems h es with
       | .error p => .error p
       | .ok ts => .ok (.evArrayPreamble es.length :: ts)) := by
  simp only [byteSliceTyp] at hb1 hx1
  constructor
  · simp [encodeValue, hb1, hx1, RVal.kind, RVal.type, byteSliceTyp, GoType.kind,
      RVal.isNil, RVal.bytes]
  · simp [encodeValue, hb2, hx2, RVal.kind, RVal.type, byteSliceTyp, GoType.kind,
      RVal.isNil]

/-- C10 witness: the two paths on the one-byte payload `[1]`. -/
theorem byteSlice_exact_type_witness :
    encodeValue hPlain (.sliceV byteSliceTyp [.prim (.tUint .u8) (.pUint 1)]) =
      .ok [.evStringBytes .cRAW ([RVal.prim (.tUint .u8) (.pUint 1)].map RVal.uint)] ∧
    encodeValue hPlain (.sliceV (.tNamed "B" (.tSlice (.tUint .u8)))
        [.prim (.tUint .u8) (.pUint 1)]) =
      (match encodeElems hPlain [.prim (.tUint .u8) (.pUint 1)] with
       | .error p => .error p
       | .ok ts => .ok (.evArrayPreamble 1 :: ts)) :=
  byteSlice_exact_type hPlain [.prim (.tUint .u8) (.pUint 1)] "B" rfl rfl rfl rfl

theorem rsizeL_mem (v : RVal) (fs : List RVal) (h : v ∈ fs) : rsize v ≤ rsizeL fs := by
  induction fs with
  | nil => cases h
  | cons f rest ih =>
    rcases List.mem_cons.mp h with hv | hv
    · subst hv
      simp [rsizeL]
    · have := ih hv
      simp [rsizeL]
      omega

theorem rvField_size (rv : RVal) (i : Nat) (v : RVal) (h : rvField rv i = .ok v) :
    rsize v < rsize rv := by
  unfold rvField at h
  split at h
  · rename_i t fs
    split at h
    · rename_i f hg
      injection h with h'
      subst h'
      have := rsizeL_mem f fs (List.get?_mem hg)
      simp [rsize]
      omega
    · exact absurd h (by simp)
  · exact absurd h (by simp)

theorem rvFieldStep_size (rv : RVal) (i : Nat) (v : RVal)
    (h : rvFieldStep rv i = .ok v) : rsize v < rsize rv := by
  unfold rvFieldStep at h
  split at h
  · split at h
    · exact absurd h (by simp)
    · split at h
      · have hlt := rvField_size _ i v h
        simp [rsize]
        omega
      · exact absurd h (by simp)
  · exact rvField_size rv i v h

theorem rvFieldByIndexRest_size (is : List Nat) (rv v : RVal)
    (h : rvFieldByIndexRest rv is = .ok v) : rsize v ≤ rsize rv := by
  induction is generalizing rv with
  | nil =>
    simp only [rvFieldByIndexRest] at h
    injection h with h'
    subst h'
    exact le_refl _
  | cons i rest ih =>
    simp only [rvFieldByIndexRest] at h
    cases hs : rvFieldStep rv i with
    | error p => rw [hs] at h; exact absurd h (by simp)
    | ok v1 =>
      rw [hs] at h
      exact le_trans (ih v1 h) (le_of_lt (rvFieldStep_size rv i v1 hs))

theorem rvFieldByIndex_size (is : List Nat) (hne : is ≠ []) (rv v : RVal)
    (h : rvFieldByIndex rv is = .ok v) : rsize v < rsize rv := by
  cases is with
  | nil => exact absurd rfl hne
  | cons i rest =>
    simp only [rvFieldByIndex] at h
    cases hf : rvField rv i with
    | error p => rw [hf] at h; exact absurd h (by simp)
    | ok v1 =>
      rw [hf] at h
      exact lt_of_le_of_lt (rvFieldByIndexRest_size rest v1 v h) (rvField_size rv i v1 hf)

theorem resolveField_size (rv : RVal) (si : StructFieldInfo) (v : RVal)
    (hvalid : -1 < si.i ∨ si.is ≠ []) (h : resolveField rv si = .ok v) :
    rsize v < rsize rv := by
  unfold resolveField at h
  split at h
  · exact rvField_size rv si.i.toNat v h
  · rename_i hni
    rcases hvalid with hv | hv
    · exact absurd hv hni
    · exact rvFieldByIndex_size si.is hv rv v h

theorem resolveAllFields_size (sis : List StructFieldInfo) (rv : RVal)
    (vs : List RVal) (h : resolveAllFields rv sis = .ok vs)
    (hvalid : ∀ si ∈ sis, -1 < si.i ∨ si.is ≠ []) :
    ∀ v ∈ vs, rsize v < rsize rv := by
  induction sis generalizing vs with
  | nil =>
    simp only [resolveAllFields] at h
    injection h with h'
    subst h'
    intro v hv
    cases hv
  | cons si rest ih =>
    simp only [resolveAllFields] at h
    cases hr : resolveField rv si with
    | error p => rw [hr] at h; exact absurd h (by simp)
    | ok v1 =>
      rw [hr] at h
      cases ha : resolveAllFields rv rest with
      | error p => rw [ha] at h; exact absurd h (by simp)
      | ok vs1 =>
        rw [ha] at h
        injection h with h'
        subst h'
        intro v hv
        rcases List.mem_cons.mp hv with hv | hv
        · subst hv
          exact resolveField_size rv si v (hvalid si (List.mem_cons_self _ _)) hr
        · exact ih vs1 ha (fun si' hs => hvalid si' (List.mem_cons_of_mem _ hs)) v hv

theorem keptFields_cons (si : StructFieldInfo) (sis : List StructFieldInfo)
    (v : RVal) (vs : List RVal) :
    keptFields (si :: sis) (v :: vs) =
      if si.omitEmpty && isEmptyValue v then keptFields sis vs
      else (si.encName, v) :: keptFields sis vs := by
  simp only [keptFields, List.zip_cons_cons, List.filter_cons]
  by_cases h1 : si.omitEmpty <;> by_cases h2 : isEmptyValue v <;> simp [h1, h2]

theorem keptFields_mem (sis : List StructFieldInfo) (vs : List RVal)
    (p : String × RVal) (h : p ∈ keptFields sis vs) : p.2 ∈ vs := by
  simp only [keptFields, List.mem_map] at h
  obtain ⟨q, hq, hpq⟩ := h
  have hz := List.of_mem_zip (List.mem_of_mem_filter hq)
  rw [← hpq]
  exact hz.2

theorem structPhase1_eq (rv : RVal) (sis : List StructFieldInfo) :
    structPhase1 rv sis =
      (match resolveAllFields rv sis with
       | .error p => .error p
       | .ok vs => .ok (keptFields sis vs)) := by
  induction sis with
  | nil => simp [structPhase1, resolveAllFields, keptFields]
  | cons si rest ih =>
    simp only [structPhase1, resolveAllFields]
    cases hr : resolveField rv si with
    | error p => rfl
    | ok v =>
      rw [ih]
      cases ha : resolveAllFields rv rest with
      | error p => rfl
      | ok vs =>
        simp only [keptFields_cons]
        by_cases he : si.omitEmpty && isEmptyValue v <;> simp [he]

theorem encodeFields_eq_fieldTrace (h : MHandle) (bound : Nat)
    (nvs : List (String × RVal)) (hlt : ∀ p ∈ nvs, rsize p.2 < bound) :
    encodeFields h bound nvs = fieldTrace h nvs := by
  induction nvs with
  | nil => simp [encodeFields, fieldTrace]
  | cons p rest ih =>
    obtain ⟨n, v⟩ := p
    have hv : rsize v < bound := hlt (n, v) (List.mem_cons_self _ _)
    rw [encodeFields, dif_pos hv, ih (fun q hq => hlt q (List.mem_cons_of_mem _ hq))]
    rfl

/-- C5: when encoding a struct, with every descriptor's field resolvable and
every descriptor carrying a usable index (flat index or non-empty path), the
emitted calls are exactly a map preamble counting the kept fields followed
by, for each kept field in descriptor order, its symbol key and generically
encoded value — where a field is kept unless its omit-empty flag is set and
its resolved value is empty (false, numeric zero, nil, or zero length). -/
theorem encStruct_omitEmpty (h : MHandle) (rt : GoType) (rv : RVal) (vs : List RVal)
    (hres : resolveAllFields rv (getStructFieldInfos rt) = .ok vs)
    (hvalid : ∀ si ∈ getStructFieldInfos rt, -1 < si.i ∨ si.is ≠ []) :
    encStruct h rt rv =
      (match fieldTrace h (keptFields (getStructFieldInfos rt) vs) with
       | .error p => .error p
       | .ok ts =>
         .ok (.evMapPreamble (keptFields (getStructFieldInfos rt) vs).length :: ts)) := by
  have h1 : structPhase1 rv (getStructFieldInfos rt)
      = .ok (keptFields (getStructFieldInfos rt) vs) := by
    rw [structPhase1_eq, hres]
  have hsz : ∀ p ∈ keptFields (getStructFieldInfos rt) vs, rsize p.2 < rsize rv :=
    fun p hp => resolveAllFields_size _ rv vs hres hvalid p.2 (keptFields_mem _ _ p hp)
  rw [encStruct, h1]
  dsimp only
  rw [encodeFields_eq_fieldTrace h (rsize rv) _ hsz]

/-- C5 witness: a two-field struct whose first field is omit-empty and
empty, applied to the theorem (the kept projection is just the second
field). -/
theorem encStruct_omitEmpty_witness :
    resolveAllFields
        (.structV (.tStruct "T" [⟨"a", true, 0, []⟩, ⟨"b", false, 1, []⟩])
          [.prim (.tInt .iw) (.pInt 0), .prim (.tInt .iw) (.pInt 5)])
        (getStructFieldInfos (.tStruct "T" [⟨"a", true, 0, []⟩, ⟨"b", false, 1, []⟩]))
      = .ok [.prim (.tInt .iw) (.pInt 0), .prim (.tInt .iw) (.pInt 5)] ∧
    encStruct hPlain (.tStruct "T" [⟨"a", true, 0, []⟩, ⟨"b", false, 1, []⟩])
        (.structV (.tStruct "T" [⟨"a", true, 0, []⟩, ⟨"b", false, 1, []⟩])
          [.prim (.tInt .iw) (.pInt 0), .prim (.tInt .iw) (.pInt 5)]) =
      (match fieldTrace hPlain
          (keptFields (getStructFieldInfos (.tStruct "T" [⟨"a", true, 0, []⟩, ⟨"b", false, 1, []⟩]))
            [.prim (.tInt .iw) (.pInt 0), .prim (.tInt .iw) (.pInt 5)]) with
       | .error p => .error p
       | .ok ts =>
         .ok (.evMapPreamble (keptFields
            (getStructFieldInfos (.tStruct "T" [⟨"a", true, 0, []⟩, ⟨"b", false, 1, []⟩]))
            [.prim (.tInt .iw) (.pInt 0), .prim (.tInt .iw) (.pInt 5)]).length :: ts)) :=
  ⟨rfl, encStruct_omitEmpty hPlain _ _ _ rfl (by decide)⟩

end Codec
